import Mathlib

/-!
Verification of the Bloom filter implementation in
`src/algorithms/bloom_filter/bloom_filter.py` against its specification.

The Python code is shallowly embedded: the `BloomFilter` class becomes a
structure with explicit state passing, Python arbitrary-precision integers
become `Int`/`Nat`, Python float formulas are modelled over the reals, and
code that raises (`ValueError`, `math domain error`, division by zero)
returns `Except String`.  The two digest algorithms (`hashlib.md5`,
`hashlib.sha256`) are external black boxes producing nonnegative integers
from the UTF-8 string form of the element; they are modelled as an
abstract pair of functions `String → Nat` over which all theorems
quantify.
-/

/-- Values accepted by the filter.  Python converts the element to its
string form (`str(item)`) before hashing; we model the two kinds of value
exercised by the spec, integers and strings. -/
inductive PyValue where
  | int (n : ℤ)
  | str (s : String)
deriving DecidableEq

/-- The canonical string form of a value, as produced by Python `str`. -/
def PyValue.toStr : PyValue → String
  | .int n => toString n
  | .str s => s

/-- Abstract pair of digest algorithms standing for `hashlib.md5` and
`hashlib.sha256` applied to the UTF-8 bytes of the string form; each
produces a nonnegative integer (`int(....hexdigest(), 16)`). -/
structure HashAlgos where
  md5 : String → Nat
  sha256 : String → Nat

/-- State of a `BloomFilter` instance: fields `size`, `hash_count`,
`bit_array`, `items_added` of the Python class. -/
structure BloomFilter where
  size : Nat
  hash_count : Nat
  bit_array : List Bool
  items_added : Nat
deriving DecidableEq

/-- Embedding of `BloomFilter.__init__`: validates `size` and
`hash_count`, then allocates an all-false bit array and zeroes the
counter.  A raised `ValueError` becomes `Except.error`. -/
def BloomFilter.mk? (size hash_count : ℤ) : Except String BloomFilter :=
  if size ≤ 0 then .error "Size must be positive"
  else if hash_count ≤ 0 then .error "Hash count must be positive"
  else .ok { size := size.toNat, hash_count := hash_count.toNat,
             bit_array := List.replicate size.toNat false, items_added := 0 }

/-- Embedding of `BloomFilter._get_hash_values`: double hashing, position
`i` is `(h1 + i * h2) % size` for `i` in `range(hash_count)`. -/
def BloomFilter.get_hash_values (bf : BloomFilter) (H : HashAlgos) (item : PyValue) : List Nat :=
  let item_bytes := item.toStr
  let h1 := H.md5 item_bytes
  let h2 := H.sha256 item_bytes
  (List.range bf.hash_count).map (fun i => (h1 + i * h2) % bf.size)

/-- Embedding of `BloomFilter.add`: sets the bit at every hash position
to `True` and increments `items_added`. -/
def BloomFilter.add (bf : BloomFilter) (H : HashAlgos) (item : PyValue) : BloomFilter :=
  let hash_values := bf.get_hash_values H item
  { bf with
    bit_array := hash_values.foldl (fun arr position => arr.set position true) bf.bit_array
    items_added := bf.items_added + 1 }

/-- Embedding of `BloomFilter.contains`: true iff the bits at all `k`
hash positions are set (the Python loop short-circuits on the first
false bit; as a pure function that is `List.all`). -/
def BloomFilter.contains (bf : BloomFilter) (H : HashAlgos) (item : PyValue) : Bool :=
  (bf.get_hash_values H item).all (fun position => bf.bit_array.getD position false)

/-- Embedding of `BloomFilter.get_fill_ratio`: `sum(self.bit_array) /
self.size`, the float division modelled exactly over `ℚ`. -/
def BloomFilter.get_fill_ratio (bf : BloomFilter) : ℚ :=
  (bf.bit_array.count true : ℚ) / (bf.size : ℚ)

/-- A sequence of `add` calls on a filter, in order. -/
def runAdds (H : HashAlgos) (bf : BloomFilter) (items : List PyValue) : BloomFilter :=
  items.foldl (fun acc item => acc.add H item) bf

/-- Python `int()` applied to a float: truncation toward zero. -/
noncomputable def pyInt (x : ℝ) : ℤ := if 0 ≤ x then ⌊x⌋ else ⌈x⌉

/-- Python `math.log`: raises `ValueError: math domain error` on
nonpositive arguments, otherwise the natural logarithm. -/
noncomputable def mathLog (x : ℝ) : Except String ℝ :=
  if 0 < x then .ok (Real.log x) else .error "math domain error"

/-- Python float division: raises `ZeroDivisionError` when the divisor
is zero. -/
noncomputable def pyDiv (a b : ℝ) : Except String ℝ :=
  if b = 0 then .error "division by zero" else .ok (a / b)

/-- Embedding of the standalone `calculate_optimal_size`:
`int(-expected_elements * math.log(fp_rate) / (math.log(2) ** 2))`,
with no parameter validation of its own. -/
noncomputable def calculate_optimal_size (expected_elements : ℤ) (fp_rate : ℝ) :
    Except String ℤ :=
  match mathLog fp_rate with
  | .error e => .error e
  | .ok lp => .ok (pyInt (-(expected_elements : ℝ) * lp / (Real.log 2) ^ 2))

/-- Embedding of the standalone `calculate_optimal_hash_count`:
`max(1, int((size / expected_elements) * math.log(2)))`, with no
parameter validation of its own. -/
noncomputable def calculate_optimal_hash_count (size expected_elements : ℤ) :
    Except String ℤ :=
  match pyDiv (size : ℝ) (expected_elements : ℝ) with
  | .error e => .error e
  | .ok q => .ok (max 1 (pyInt (q * Real.log 2)))

/-- Embedding of the standalone `bits_per_element`:
`-math.log(fp_rate) / (math.log(2) ** 2)`, with no parameter validation
of its own. -/
noncomputable def bits_per_element (fp_rate : ℝ) : Except String ℝ :=
  match mathLog fp_rate with
  | .error e => .error e
  | .ok lp => .ok (-lp / (Real.log 2) ^ 2)

/-- Embedding of the classmethod `BloomFilter.create_optimal`: validates
the two parameters, computes `size` and `hash_count` with the same
formulas as the standalone functions, and delegates to the constructor. -/
noncomputable def BloomFilter.create_optimal (expected_elements : ℤ) (fp_rate : ℝ) :
    Except String BloomFilter :=
  if expected_elements ≤ 0 then .error "Expected elements must be positive"
  else if ¬ (0 < fp_rate ∧ fp_rate < 1) then
    .error "False positive rate must be between 0 and 1"
  else
    let size := pyInt (-(expected_elements : ℝ) * Real.log fp_rate / (Real.log 2) ^ 2)
    let hash_count := max 1 (pyInt (((size : ℝ) / (expected_elements : ℝ)) * Real.log 2))
    BloomFilter.mk? size hash_count

/-- Modelled from the spec: section 4.1 states the optimal capacity as
`ceil_to_int( -n * ln(p) / (ln 2)^2 )`, the real-valued formula rounded
up to an integer.  This is the claimed behaviour, kept separate from the
source embedding for comparison. -/
noncomputable def spec_optimal_size (n : ℤ) (p : ℝ) : ℤ :=
  ⌈-(n : ℝ) * Real.log p / (Real.log 2) ^ 2⌉

/-- Concrete digest pair used to instantiate witnesses. -/
def testAlgos : HashAlgos where
  md5 := fun s => s.length
  sha256 := fun s => 2 * s.length + 1

/-- The bit-setting loop of `add`: set the bit at every listed position. -/
def setBits (l : List Bool) (ps : List Nat) : List Bool :=
  ps.foldl (fun arr p => arr.set p true) l

lemma setBits_nil (l : List Bool) : setBits l [] = l := rfl

lemma setBits_cons (l : List Bool) (p : Nat) (ps : List Nat) :
    setBits l (p :: ps) = setBits (l.set p true) ps := rfl

lemma length_setBits (l : List Bool) (ps : List Nat) :
    (setBits l ps).length = l.length := by
  induction ps generalizing l with
  | nil => rfl
  | cons p ps ih => rw [setBits_cons, ih, List.length_set]

lemma getElem?_setBits (l : List Bool) (ps : List Nat) (i : Nat) :
    (setBits l ps)[i]? = if i ∈ ps ∧ i < l.length then some true else l[i]? := by
  induction ps generalizing l with
  | nil => simp [setBits_nil]
  | cons p ps ih =>
      rw [setBits_cons, ih]
      simp only [List.length_set, List.getElem?_set, List.mem_cons]
      split_ifs <;> simp_all

lemma getD_setBits_of_mem {l : List Bool} {ps : List Nat} {i : Nat}
    (h : i ∈ ps) (hlen : i < l.length) : (setBits l ps).getD i false = true := by
  rw [List.getD_eq_getElem?_getD, getElem?_setBits, if_pos ⟨h, hlen⟩]
  rfl

lemma getD_setBits_of_true {l : List Bool} {ps : List Nat} {i : Nat}
    (h : l.getD i false = true) : (setBits l ps).getD i false = true := by
  rw [List.getD_eq_getElem?_getD] at h ⊢
  rw [getElem?_setBits]
  split_ifs with hc
  · rfl
  · exact h

lemma setBits_setBits (l : List Bool) (ps : List Nat) :
    setBits (setBits l ps) ps = setBits l ps := by
  apply List.ext_getElem?
  intro i
  rw [getElem?_setBits, getElem?_setBits, length_setBits]
  split_ifs <;> rfl

lemma count_true_le_set (l : List Bool) (p : Nat) :
    l.count true ≤ (l.set p true).count true := by
  induction l generalizing p with
  | nil => simp
  | cons b t ih =>
      cases p with
      | zero => cases b <;> simp [List.count_cons]
      | succ p => cases b <;> simp [List.count_cons, ih p]

lemma count_true_le_setBits (l : List Bool) (ps : List Nat) :
    l.count true ≤ (setBits l ps).count true := by
  induction ps generalizing l with
  | nil => exact le_rfl
  | cons p ps ih =>
      rw [setBits_cons]
      exact le_trans (count_true_le_set l p) (ih (l.set p true))

lemma add_size (bf : BloomFilter) (H : HashAlgos) (item : PyValue) :
    (bf.add H item).size = bf.size := rfl

lemma add_hash_count (bf : BloomFilter) (H : HashAlgos) (item : PyValue) :
    (bf.add H item).hash_count = bf.hash_count := rfl

lemma add_bit_array (bf : BloomFilter) (H : HashAlgos) (item : PyValue) :
    (bf.add H item).bit_array = setBits bf.bit_array (bf.get_hash_values H item) := rfl

lemma add_items_added (bf : BloomFilter) (H : HashAlgos) (item : PyValue) :
    (bf.add H item).items_added = bf.items_added + 1 := rfl

lemma add_length (bf : BloomFilter) (H : HashAlgos) (item : PyValue) :
    (bf.add H item).bit_array.length = bf.bit_array.length := by
  rw [add_bit_array, length_setBits]

lemma get_hash_values_congr {bf₁ bf₂ : BloomFilter} (H : HashAlgos) (item : PyValue)
    (hs : bf₁.size = bf₂.size) (hk : bf₁.hash_count = bf₂.hash_count) :
    bf₁.get_hash_values H item = bf₂.get_hash_values H item := by
  unfold BloomFilter.get_hash_values
  rw [hs, hk]

lemma mem_get_hash_values_lt {bf : BloomFilter} {H : HashAlgos} {item : PyValue}
    (hm : 0 < bf.size) {p : Nat} (hp : p ∈ bf.get_hash_values H item) : p < bf.size := by
  unfold BloomFilter.get_hash_values at hp
  simp only [List.mem_map, List.mem_range] at hp
  obtain ⟨i, -, rfl⟩ := hp
  exact Nat.mod_lt _ hm

lemma contains_eq_all (bf : BloomFilter) (H : HashAlgos) (item : PyValue) :
    bf.contains H item =
      (bf.get_hash_values H item).all (fun p => bf.bit_array.getD p false) := rfl

lemma runAdds_nil (H : HashAlgos) (bf : BloomFilter) : runAdds H bf [] = bf := rfl

lemma runAdds_cons (H : HashAlgos) (bf : BloomFilter) (it : PyValue) (its : List PyValue) :
    runAdds H bf (it :: its) = runAdds H (bf.add H it) its := rfl

lemma runAdds_size (H : HashAlgos) (bf : BloomFilter) (items : List PyValue) :
    (runAdds H bf items).size = bf.size := by
  induction items generalizing bf with
  | nil => rfl
  | cons it its ih => rw [runAdds_cons, ih, add_size]

lemma runAdds_hash_count (H : HashAlgos) (bf : BloomFilter) (items : List PyValue) :
    (runAdds H bf items).hash_count = bf.hash_count := by
  induction items generalizing bf with
  | nil => rfl
  | cons it its ih => rw [runAdds_cons, ih, add_hash_count]

lemma runAdds_length (H : HashAlgos) (bf : BloomFilter) (items : List PyValue) :
    (runAdds H bf items).bit_array.length = bf.bit_array.length := by
  induction items generalizing bf with
  | nil => rfl
  | cons it its ih => rw [runAdds_cons, ih, add_length]

lemma runAdds_getD_true (H : HashAlgos) (bf : BloomFilter) (items : List PyValue)
    {i : Nat} (h : bf.bit_array.getD i false = true) :
    (runAdds H bf items).bit_array.getD i false = true := by
  induction items generalizing bf with
  | nil => exact h
  | cons it its ih =>
      rw [runAdds_cons]
      exact ih _ (by rw [add_bit_array]; exact getD_setBits_of_true h)

lemma runAdds_count (H : HashAlgos) (bf : BloomFilter) (items : List PyValue) :
    bf.bit_array.count true ≤ (runAdds H bf items).bit_array.count true := by
  induction items generalizing bf with
  | nil => exact le_rfl
  | cons it its ih =>
      rw [runAdds_cons]
      refine le_trans ?_ (ih (bf.add H it))
      rw [add_bit_array]
      exact count_true_le_setBits _ _

lemma mk?_ok {s k : ℤ} {bf : BloomFilter} (h : BloomFilter.mk? s k = .ok bf) :
    0 < bf.size ∧ 0 < bf.hash_count ∧ bf.bit_array.length = bf.size ∧ bf.items_added = 0 := by
  unfold BloomFilter.mk? at h
  by_cases h1 : s ≤ 0
  · rw [if_pos h1] at h
    exact absurd h (by simp)
  rw [if_neg h1] at h
  by_cases h2 : k ≤ 0
  · rw [if_pos h2] at h
    exact absurd h (by simp)
  rw [if_neg h2] at h
  injection h with h
  subst h
  refine ⟨?_, ?_, ?_, rfl⟩
  · show 0 < s.toNat
    omega
  · show 0 < k.toNat
    omega
  · show (List.replicate s.toNat false).length = s.toNat
    simp

/-- C1: for every filter constructed with capacity >= 1 and
hashCount >= 1 (successful `mk?`), every element, and every sequence of
operations: once `add e` has happened, every later `contains e` returns
true, whatever adds come before or after. -/
theorem C1_no_false_negatives (H : HashAlgos) (s k : ℤ) (bf : BloomFilter)
    (hbf : BloomFilter.mk? s k = .ok bf) (pre post : List PyValue) (e : PyValue) :
    (runAdds H ((runAdds H bf pre).add H e) post).contains H e = true := by
  obtain ⟨hsize, -, hlen, -⟩ := mk?_ok hbf
  rw [contains_eq_all, List.all_eq_true]
  intro p hp
  have hcong : (runAdds H ((runAdds H bf pre).add H e) post).get_hash_values H e =
      (runAdds H bf pre).get_hash_values H e := by
    refine get_hash_values_congr H e ?_ ?_
    · rw [runAdds_size, add_size]
    · rw [runAdds_hash_count, add_hash_count]
  rw [hcong] at hp
  have hsize1 : (runAdds H bf pre).size = bf.size := runAdds_size H bf pre
  have hlen1 : (runAdds H bf pre).bit_array.length = bf.bit_array.length :=
    runAdds_length H bf pre
  have hbit : ((runAdds H bf pre).add H e).bit_array.getD p false = true := by
    rw [add_bit_array]
    refine getD_setBits_of_mem hp ?_
    rw [hlen1, hlen, ← hsize1]
    exact mem_get_hash_values_lt (by rw [hsize1]; exact hsize) hp
  exact runAdds_getD_true H _ post hbit

/-- C6: with hashCount = k and capacity = m >= 1, the position generator
produces exactly k positions, each in `[0, m)`, position `i` being
`(h1 + i * h2) mod m` for the two digests of the string form, and every
position is 0 when m = 1. -/
theorem C6_position_generator (H : HashAlgos) (bf : BloomFilter) (item : PyValue)
    (hm : 0 < bf.size) :
    (bf.get_hash_values H item).length = bf.hash_count ∧
    (∀ p ∈ bf.get_hash_values H item, p < bf.size) ∧
    (∀ i : Nat, i < bf.hash_count →
      (bf.get_hash_values H item)[i]? =
        some ((H.md5 item.toStr + i * H.sha256 item.toStr) % bf.size)) ∧
    (bf.size = 1 → ∀ p ∈ bf.get_hash_values H item, p = 0) := by
  refine ⟨?_, fun p hp => mem_get_hash_values_lt hm hp, ?_, ?_⟩
  · unfold BloomFilter.get_hash_values
    simp
  · intro i hi
    unfold BloomFilter.get_hash_values
    simp [List.getElem?_map, List.getElem?_range hi]
  · intro h1 p hp
    have := mem_get_hash_values_lt hm hp
    omega

/-- C7: the position list is a pure function of the element and of the
fixed parameters (capacity, hashCount): two filters agreeing on those
parameters produce identical position lists, independently of their bit
array or insertion counter, with no per-process random state in the
model. -/
theorem C7_determinism (H : HashAlgos) (bf₁ bf₂ : BloomFilter) (item : PyValue)
    (hs : bf₁.size = bf₂.size) (hk : bf₁.hash_count = bf₂.hash_count) :
    bf₁.get_hash_values H item = bf₂.get_hash_values H item := by
  unfold BloomFilter.get_hash_values
  rw [hs, hk]

/-- C8: adding the same element twice leaves the bit array exactly as
after adding it once, while `items_added` increases by 2 instead of 1. -/
theorem C8_idempotent_bits (H : HashAlgos) (bf : BloomFilter) (item : PyValue) :
    ((bf.add H item).add H item).bit_array = (bf.add H item).bit_array ∧
    ((bf.add H item).add H item).items_added = bf.items_added + 2 ∧
    (bf.add H item).items_added = bf.items_added + 1 := by
  refine ⟨?_, ?_, add_items_added bf H item⟩
  · have hcong : (bf.add H item).get_hash_values H item = bf.get_hash_values H item :=
      get_hash_values_congr H item (add_size bf H item) (add_hash_count bf H item)
    rw [add_bit_array, hcong, add_bit_array, setBits_setBits]
  · rw [add_items_added, add_items_added]

/-- C9: bits only flip false to true: any bit true before an `add` is
true after it (`contains` and the statistics accessors are read-only in
the embedding), and `get_fill_ratio` is non-decreasing along any
sequence of `add` calls. -/
theorem C9_monotone_bits (H : HashAlgos) (bf : BloomFilter) :
    (∀ (item : PyValue) (i : Nat), bf.bit_array.getD i false = true →
      (bf.add H item).bit_array.getD i false = true) ∧
    (∀ items : List PyValue, bf.get_fill_ratio ≤ (runAdds H bf items).get_fill_ratio) := by
  constructor
  · intro item i h
    rw [add_bit_array]
    exact getD_setBits_of_true h
  · intro items
    unfold BloomFilter.get_fill_ratio
    rw [runAdds_size]
    refine div_le_div_of_nonneg_right ?_ ?_
    · exact_mod_cast runAdds_count H bf items
    · exact_mod_cast Nat.zero_le bf.size

/-- C10: elements are identified by their string form: values with equal
string representations get identical position lists, so adding one makes
`contains` of the other return true. -/
theorem C10_string_form_identity (H : HashAlgos) (bf : BloomFilter) (x y : PyValue)
    (hxy : x.toStr = y.toStr) (hm : 0 < bf.size)
    (hl : bf.bit_array.length = bf.size) :
    bf.get_hash_values H x = bf.get_hash_values H y ∧
    (bf.add H x).contains H y = true := by
  have hpos : bf.get_hash_values H x = bf.get_hash_values H y := by
    unfold BloomFilter.get_hash_values
    rw [hxy]
  refine ⟨hpos, ?_⟩
  rw [contains_eq_all, List.all_eq_true]
  intro p hp
  have hcong : (bf.add H x).get_hash_values H y = bf.get_hash_values H y :=
    get_hash_values_congr H y (add_size bf H x) (add_hash_count bf H x)
  rw [hcong, ← hpos] at hp
  rw [add_bit_array]
  exact getD_setBits_of_mem hp (by rw [hl]; exact mem_get_hash_values_lt hm hp)

/-- Concrete freshly constructed filter used by witnesses. -/
def wFilter : BloomFilter :=
  { size := 5, hash_count := 3, bit_array := List.replicate 5 false, items_added := 0 }

/-- Concrete filter with the same parameters as `wFilter` but different
bit array and counter. -/
def w7Filter : BloomFilter :=
  { size := 5, hash_count := 3, bit_array := [true, true, false, false, true], items_added := 7 }

/-- Concrete filter with one bit already set. -/
def w9Filter : BloomFilter :=
  { size := 3, hash_count := 2, bit_array := [true, false, false], items_added := 1 }

theorem C1_no_false_negatives_witness :
    BloomFilter.mk? 5 3 = Except.ok wFilter ∧
    (runAdds testAlgos ((runAdds testAlgos wFilter [PyValue.str "a"]).add testAlgos
        (PyValue.str "hello")) [PyValue.str "bb"]).contains testAlgos
      (PyValue.str "hello") = true :=
  ⟨rfl, C1_no_false_negatives testAlgos 5 3 wFilter rfl
    [PyValue.str "a"] [PyValue.str "bb"] (PyValue.str "hello")⟩

theorem C6_position_generator_witness :
    0 < wFilter.size ∧
    (wFilter.get_hash_values testAlgos (PyValue.str "ab")).length = wFilter.hash_count :=
  ⟨by decide, (C6_position_generator testAlgos wFilter (PyValue.str "ab") (by decide)).1⟩

theorem C7_determinism_witness :
    wFilter.get_hash_values testAlgos (PyValue.str "abc") =
      w7Filter.get_hash_values testAlgos (PyValue.str "abc") :=
  C7_determinism testAlgos wFilter w7Filter (PyValue.str "abc") rfl rfl

theorem C9_monotone_bits_witness :
    (w9Filter.add testAlgos (PyValue.str "x")).bit_array.getD 0 false = true ∧
    w9Filter.get_fill_ratio ≤ (runAdds testAlgos w9Filter [PyValue.str "x"]).get_fill_ratio :=
  ⟨(C9_monotone_bits testAlgos w9Filter).1 (PyValue.str "x") 0 (by decide),
   (C9_monotone_bits testAlgos w9Filter).2 [PyValue.str "x"]⟩

theorem C10_string_form_identity_witness :
    wFilter.get_hash_values testAlgos (PyValue.int 42) =
      wFilter.get_hash_values testAlgos (PyValue.str "42") ∧
    (wFilter.add testAlgos (PyValue.int 42)).contains testAlgos (PyValue.str "42") = true :=
  C10_string_form_identity testAlgos wFilter (PyValue.int 42) (PyValue.str "42")
    (by decide) (by decide) (by decide)

lemma pyInt_of_nonneg {x : ℝ} (h : 0 ≤ x) : pyInt x = ⌊x⌋ := by
  unfold pyInt
  rw [if_pos h]

lemma pyInt_of_neg {x : ℝ} (h : x < 0) : pyInt x = ⌈x⌉ := by
  unfold pyInt
  rw [if_neg (not_le.mpr h)]

lemma mathLog_ok {x : ℝ} (h : 0 < x) : mathLog x = .ok (Real.log x) := by
  unfold mathLog
  rw [if_pos h]

lemma mathLog_err {x : ℝ} (h : ¬ 0 < x) : mathLog x = .error "math domain error" := by
  unfold mathLog
  rw [if_neg h]

lemma pyDiv_ok {a b : ℝ} (h : b ≠ 0) : pyDiv a b = .ok (a / b) := by
  unfold pyDiv
  rw [if_neg h]

lemma pyDiv_err (a : ℝ) : pyDiv a 0 = .error "division by zero" := by
  unfold pyDiv
  rw [if_pos rfl]

lemma calculate_optimal_size_ok {p : ℝ} (n : ℤ) (h : 0 < p) :
    calculate_optimal_size n p =
      .ok (pyInt (-(n : ℝ) * Real.log p / (Real.log 2) ^ 2)) := by
  unfold calculate_optimal_size
  rw [mathLog_ok h]

lemma log_two_pos : 0 < Real.log 2 := Real.log_pos one_lt_two

lemma log_two_lt_one : Real.log 2 < 1 := by
  have h := Real.log_two_lt_d9
  norm_num at h
  linarith

lemma half_lt_log_two : (1/2 : ℝ) < Real.log 2 := by
  have h := Real.log_two_gt_d9
  norm_num at h
  linarith

lemma one_le_inv_log_two : (1 : ℝ) ≤ 1 / Real.log 2 := by
  rw [le_div_iff₀ log_two_pos, one_mul]
  exact log_two_lt_one.le

lemma one_lt_inv_log_two : (1 : ℝ) < 1 / Real.log 2 := by
  rw [lt_div_iff₀ log_two_pos, one_mul]
  exact log_two_lt_one

lemma inv_log_two_lt_two : 1 / Real.log 2 < 2 := by
  rw [div_lt_iff₀ log_two_pos]
  linarith [half_lt_log_two]

lemma floor_inv_log_two : ⌊(1 : ℝ) / Real.log 2⌋ = 1 := by
  rw [Int.floor_eq_iff]
  refine ⟨by exact_mod_cast one_le_inv_log_two, by push_cast; linarith [inv_log_two_lt_two]⟩

lemma ceil_inv_log_two : ⌈(1 : ℝ) / Real.log 2⌉ = 2 := by
  rw [Int.ceil_eq_iff]
  refine ⟨by push_cast; linarith [one_lt_inv_log_two],
          by push_cast; linarith [inv_log_two_lt_two]⟩

lemma log_half : Real.log ((1:ℝ)/2) = -Real.log 2 := by
  rw [show ((1:ℝ)/2) = (2:ℝ)⁻¹ by norm_num, Real.log_inv]

lemma val_one_half : -((1:ℤ) : ℝ) * Real.log ((1:ℝ)/2) / (Real.log 2) ^ 2 = 1 / Real.log 2 := by
  have h := log_two_pos.ne'
  rw [log_half]
  push_cast
  field_simp
  ring

lemma val_neg_one_half :
    -((-1:ℤ) : ℝ) * Real.log ((1:ℝ)/2) / (Real.log 2) ^ 2 = -(1 / Real.log 2) := by
  have h := log_two_pos.ne'
  rw [log_half]
  push_cast
  field_simp
  ring

lemma log_nine_tenths : Real.log ((9:ℝ)/10) = -Real.log ((10:ℝ)/9) := by
  rw [show ((9:ℝ)/10) = ((10:ℝ)/9)⁻¹ by norm_num, Real.log_inv]

lemma val_nine_tenths :
    -((1:ℤ) : ℝ) * Real.log ((9:ℝ)/10) / (Real.log 2) ^ 2 =
      Real.log ((10:ℝ)/9) / (Real.log 2) ^ 2 := by
  rw [log_nine_tenths]
  push_cast
  ring

lemma log_ten_ninths_lt_sq_log_two : Real.log ((10:ℝ)/9) < (Real.log 2) ^ 2 := by
  have h1 : Real.log ((10:ℝ)/9) ≤ (10:ℝ)/9 - 1 :=
    Real.log_le_sub_one_of_pos (by norm_num)
  nlinarith [Real.log_two_gt_d9]

lemma size_at_one_nine_tenths :
    pyInt (-((1:ℤ) : ℝ) * Real.log ((9:ℝ)/10) / (Real.log 2) ^ 2) = 0 := by
  have hnn : 0 ≤ Real.log ((10:ℝ)/9) := Real.log_nonneg (by norm_num)
  rw [val_nine_tenths, pyInt_of_nonneg (div_nonneg hnn (sq_nonneg _))]
  apply Int.floor_eq_zero_iff.mpr
  rw [Set.mem_Ico]
  refine ⟨div_nonneg hnn (sq_nonneg _), ?_⟩
  rw [div_lt_one (by positivity)]
  exact log_ten_ninths_lt_sq_log_two

lemma optimal_size_val_nonneg {n : ℤ} {p : ℝ} (hn : 0 < n) (hp0 : 0 < p) (hp1 : p < 1) :
    0 ≤ -(n : ℝ) * Real.log p / (Real.log 2) ^ 2 := by
  apply div_nonneg _ (sq_nonneg _)
  have hlog : Real.log p < 0 := Real.log_neg hp0 hp1
  have hn' : (0:ℝ) < (n : ℝ) := by exact_mod_cast hn
  nlinarith

lemma mk?_ok_iff (s k : ℤ) :
    (∃ bf, BloomFilter.mk? s k = .ok bf) ↔ 0 < s ∧ 0 < k := by
  constructor
  · rintro ⟨bf, hbf⟩
    unfold BloomFilter.mk? at hbf
    by_cases h1 : s ≤ 0
    · rw [if_pos h1] at hbf
      exact absurd hbf (by simp)
    rw [if_neg h1] at hbf
    by_cases h2 : k ≤ 0
    · rw [if_pos h2] at hbf
      exact absurd hbf (by simp)
    exact ⟨by omega, by omega⟩
  · rintro ⟨hs, hk⟩
    refine ⟨{ size := s.toNat, hash_count := k.toNat,
              bit_array := List.replicate s.toNat false, items_added := 0 }, ?_⟩
    unfold BloomFilter.mk?
    rw [if_neg (by omega), if_neg (by omega)]

lemma create_optimal_valid {n : ℤ} {p : ℝ} (hn : 0 < n) (hp : 0 < p ∧ p < 1) :
    BloomFilter.create_optimal n p =
      BloomFilter.mk? (pyInt (-(n : ℝ) * Real.log p / (Real.log 2) ^ 2))
        (max 1 (pyInt (((pyInt (-(n : ℝ) * Real.log p / (Real.log 2) ^ 2) : ℤ) : ℝ) /
          (n : ℝ) * Real.log 2))) := by
  unfold BloomFilter.create_optimal
  rw [if_neg (by omega : ¬ n ≤ 0), if_neg (not_not_intro hp)]

/-- C2 counterexample: at n = 1, p = 1/2 the real-valued formula is
1 / ln 2 which is about 1.44; the code truncates to 1 while the spec
formula, rounded up, gives 2. -/
theorem C2_counterexample :
    calculate_optimal_size 1 (1/2) = .ok 1 ∧ spec_optimal_size 1 (1/2) = 2 := by
  constructor
  · rw [calculate_optimal_size_ok 1 (by norm_num), val_one_half,
        pyInt_of_nonneg (div_nonneg zero_le_one log_two_pos.le), floor_inv_log_two]
  · unfold spec_optimal_size
    rw [val_one_half, ceil_inv_log_two]

/-- C2 corrected: for n > 0 and 0 < p < 1, the optimal-size computation
(standalone function and the `pyInt` expression inside `create_optimal`)
returns the formula value rounded DOWN (Python `int()` truncation, which
is the floor for this nonnegative value), not rounded up. -/
theorem C2_amended (n : ℤ) (p : ℝ) (hn : 0 < n) (hp0 : 0 < p) (hp1 : p < 1) :
    calculate_optimal_size n p = .ok ⌊-(n : ℝ) * Real.log p / (Real.log 2) ^ 2⌋ ∧
    pyInt (-(n : ℝ) * Real.log p / (Real.log 2) ^ 2) =
      ⌊-(n : ℝ) * Real.log p / (Real.log 2) ^ 2⌋ := by
  have hval := optimal_size_val_nonneg hn hp0 hp1
  exact ⟨by rw [calculate_optimal_size_ok n hp0, pyInt_of_nonneg hval],
         pyInt_of_nonneg hval⟩

theorem C2_amended_witness :
    calculate_optimal_size 1 (1/2) = .ok ⌊-((1:ℤ) : ℝ) * Real.log (1/2) / (Real.log 2) ^ 2⌋ :=
  (C2_amended 1 (1/2) (by norm_num) (by norm_num) (by norm_num)).1

/-- C3 counterexample: at the valid input n = 1, p = 9/10 the standalone
`calculate_optimal_size` returns 0, not a value >= 1. -/
theorem C3_counterexample :
    calculate_optimal_size 1 (9/10) = .ok 0 ∧
    ¬ (∀ v : ℤ, calculate_optimal_size 1 (9/10) = .ok v → 1 ≤ v) := by
  have h : calculate_optimal_size 1 (9/10) = .ok 0 := by
    rw [calculate_optimal_size_ok 1 (by norm_num), size_at_one_nine_tenths]
  refine ⟨h, fun hall => ?_⟩
  have := hall 0 h
  omega

/-- C3 corrected: `calculate_optimal_hash_count` always returns a value
>= 1 for n > 0 (the `max(1, ...)` guard), but `calculate_optimal_size`
is only guaranteed nonnegative for valid inputs, and can return 0. -/
theorem C3_amended (m n : ℤ) (p : ℝ) (_hm : 1 ≤ m) (hn : 0 < n)
    (hp0 : 0 < p) (hp1 : p < 1) :
    (∃ v : ℤ, calculate_optimal_hash_count m n = .ok v ∧ 1 ≤ v) ∧
    (∃ v : ℤ, calculate_optimal_size n p = .ok v ∧ 0 ≤ v) := by
  constructor
  · refine ⟨max 1 (pyInt ((m : ℝ) / (n : ℝ) * Real.log 2)), ?_, le_max_left _ _⟩
    unfold calculate_optimal_hash_count
    rw [pyDiv_ok (Int.cast_ne_zero.mpr hn.ne')]
  · have hval := optimal_size_val_nonneg hn hp0 hp1
    refine ⟨⌊-(n : ℝ) * Real.log p / (Real.log 2) ^ 2⌋, ?_, Int.floor_nonneg.mpr hval⟩
    rw [calculate_optimal_size_ok n hp0, pyInt_of_nonneg hval]

theorem C3_amended_witness :
    (∃ v : ℤ, calculate_optimal_hash_count 10 5 = .ok v ∧ 1 ≤ v) ∧
    (∃ v : ℤ, calculate_optimal_size 5 (1/2) = .ok v ∧ 0 ≤ v) :=
  C3_amended 10 5 (1/2) (by norm_num) (by norm_num) (by norm_num) (by norm_num)

/-- C4 counterexample: at the invalid input n = -1 (n <= 0), p = 1/2 the
standalone `calculate_optimal_size` returns a value instead of failing. -/
theorem C4_counterexample :
    calculate_optimal_size (-1) (1/2) = .ok (-1) ∧ (-1 : ℤ) ≤ 0 := by
  refine ⟨?_, by norm_num⟩
  have hpos : (0:ℝ) < 1 / Real.log 2 := div_pos one_pos log_two_pos
  rw [calculate_optimal_size_ok (-1) (by norm_num), val_neg_one_half,
      pyInt_of_neg (neg_lt_zero.mpr hpos), Int.ceil_neg, floor_inv_log_two]

/-- C4 corrected: the standalone functions perform no parameter
validation.  For any n (including n <= 0) and any p > 0 (including
p >= 1) they return a value; `calculate_optimal_size` and
`bits_per_element` fail only with the `math.log` domain error at p <= 0,
and `calculate_optimal_hash_count` fails only with a zero-division error
at n = 0. -/
theorem C4_amended (n m : ℤ) (p : ℝ) :
    (0 < p → ∃ v : ℤ, calculate_optimal_size n p = .ok v) ∧
    (p ≤ 0 → calculate_optimal_size n p = .error "math domain error") ∧
    (0 < p → ∃ v : ℝ, bits_per_element p = .ok v) ∧
    (p ≤ 0 → bits_per_element p = .error "math domain error") ∧
    (n ≠ 0 → ∃ v : ℤ, calculate_optimal_hash_count m n = .ok v) ∧
    (n = 0 → calculate_optimal_hash_count m n = .error "division by zero") := by
  refine ⟨?_, ?_, ?_, ?_, ?_, ?_⟩
  · intro h
    exact ⟨_, calculate_optimal_size_ok n h⟩
  · intro h
    unfold calculate_optimal_size
    rw [mathLog_err (not_lt.mpr h)]
  · intro h
    refine ⟨-Real.log p / (Real.log 2) ^ 2, ?_⟩
    unfold bits_per_element
    rw [mathLog_ok h]
  · intro h
    unfold bits_per_element
    rw [mathLog_err (not_lt.mpr h)]
  · intro h
    refine ⟨max 1 (pyInt ((m : ℝ) / (n : ℝ) * Real.log 2)), ?_⟩
    unfold calculate_optimal_hash_count
    rw [pyDiv_ok (Int.cast_ne_zero.mpr h)]
  · intro h
    subst h
    unfold calculate_optimal_hash_count
    rw [show ((0:ℤ) : ℝ) = 0 by norm_num, pyDiv_err]

theorem C4_amended_witness :
    (∃ v : ℤ, calculate_optimal_size (-1) 2 = .ok v) ∧
    (∃ v : ℤ, calculate_optimal_hash_count 100 (-5) = .ok v) ∧
    bits_per_element (-3) = .error "math domain error" :=
  ⟨(C4_amended (-1) 100 2).1 (by norm_num),
   (C4_amended (-5) 100 2).2.2.2.2.1 (by norm_num),
   (C4_amended (-5) 100 (-3)).2.2.2.1 (by norm_num)⟩

/-- C5 counterexample: `create_optimal 1 (9/10)` has valid arguments
(n = 1 > 0 and 9/10 strictly inside (0,1)) yet fails, because the size
it computes truncates to 0 and the constructor rejects it. -/
theorem C5_counterexample :
    BloomFilter.create_optimal 1 (9/10) = .error "Size must be positive" ∧
    (0 : ℤ) < 1 ∧ (0 : ℝ) < 9/10 ∧ (9/10 : ℝ) < 1 := by
  refine ⟨?_, by norm_num, by norm_num, by norm_num⟩
  rw [create_optimal_valid (by norm_num) ⟨by norm_num, by norm_num⟩, size_at_one_nine_tenths]
  rfl

/-- C5 corrected: direct construction fails exactly on nonpositive
capacity or hash count, but `create_optimal` succeeds exactly when its
arguments are valid AND the computed (truncated) size is positive; with
n small and p close to 1 the size truncates to 0 and construction fails
despite valid arguments.  The hash count never causes a failure because
of the `max(1, ...)` guard. -/
theorem C5_amended (s k n : ℤ) (p : ℝ) :
    ((∃ bf, BloomFilter.mk? s k = .ok bf) ↔ 0 < s ∧ 0 < k) ∧
    ((∃ bf, BloomFilter.create_optimal n p = .ok bf) ↔
      0 < n ∧ 0 < p ∧ p < 1 ∧
        0 < pyInt (-(n : ℝ) * Real.log p / (Real.log 2) ^ 2)) := by
  refine ⟨mk?_ok_iff s k, ?_⟩
  constructor
  · rintro ⟨bf, hbf⟩
    by_cases h1 : n ≤ 0
    · rw [BloomFilter.create_optimal, if_pos h1] at hbf
      exact absurd hbf (by simp)
    by_cases h2 : 0 < p ∧ p < 1
    · rw [create_optimal_valid (by omega) h2] at hbf
      have hmk := (mk?_ok_iff _ _).mp ⟨bf, hbf⟩
      exact ⟨by omega, h2.1, h2.2, hmk.1⟩
    · rw [BloomFilter.create_optimal, if_neg h1, if_pos h2] at hbf
      exact absurd hbf (by simp)
  · rintro ⟨hn, hp0, hp1, hsize⟩
    rw [create_optimal_valid hn ⟨hp0, hp1⟩]
    exact (mk?_ok_iff _ _).mpr ⟨hsize, lt_max_iff.mpr (Or.inl one_pos)⟩

theorem C5_amended_witness :
    (∃ bf, BloomFilter.mk? 5 3 = Except.ok bf) ∧
    ¬ (∃ bf, BloomFilter.mk? 0 3 = Except.ok bf) :=
  ⟨(C5_amended 5 3 1 (1/2)).1.mpr (by norm_num),
   fun h => by have := (C5_amended 0 3 1 (1/2)).1.mp h; omega⟩
